import Mathlib

/-!
A verification development for the `lex` tokenizer-engine library
(state-machine-driven scanner with position tracking, one-step backtracking,
and channel-based token delivery).

The Go sources are shallowly embedded: Go runes are modelled as `Int`
(the `EOF` sentinel is `-1`, the zero rune is `0`), the unbuffered token
channel is modelled as the ordered list of tokens sent on it (Go's channel
is FIFO with blocking handoff, so the delivery order equals the send order,
and the driver returning corresponds to the channel being closed), and a
Go run-time panic (out-of-range slice index) is modelled by an operation
returning `none`.
-/

namespace Lex

/-- Go `rune` (an `int32`); the engine uses `-1` as the end-of-source
sentinel, which never collides with a real decoded character. -/
abbrev Rune := Int

/-- Go `type TokenType int`. -/
abbrev TokenType := Int

/-- `const EOF rune = -1` -/
def EOF : Rune := -1

/-- `const TokError TokenType = -1` -/
def TokError : TokenType := -1

/-- The token type used by the repository's word-lexer state functions
(`TokWord TokenType = iota`, i.e. `0`). -/
def TokWord : TokenType := 0

/-- The newline rune `'\n'`. -/
def nl : Rune := 10

/-- `type pos struct { line, col, pos int }` -/
structure Pos where
  line : Int
  col : Int
  pos : Int
deriving DecidableEq, Repr

/-- `pos.Advance`: `p.col++; p.pos++; if r == '\n' { p.line++; p.col = 0 }`. -/
def Pos.Advance (p : Pos) (r : Rune) : Pos :=
  let p1 : Pos := { p with col := p.col + 1, pos := p.pos + 1 }
  if r = nl then { p1 with line := p1.line + 1, col := 0 } else p1

/-- The `interface{}` payload attached by `EmitExtra`; modelled opaquely
(`nil` is `none`). -/
abbrev Extra := Option Nat

/-- `type Token struct { Type; Value; Line; Col; Pos; Extra }`.
Go stores `Value` as a `string` obtained from the rune slice; we keep the
rune list itself (the conversion is injective for the characters involved). -/
structure Token where
  type : TokenType
  value : List Rune
  line : Int
  col : Int
  pos : Int
  extra : Extra
deriving DecidableEq, Repr

/-- The terminal outcome of the underlying character source: ordinary
end-of-stream (`io.EOF`) or a read failure carrying a message. -/
inductive SrcErr where
  | eof
  | other (m : String)
deriving DecidableEq, Repr

/-- `err.Error()` for a source error (`io.EOF.Error() = "EOF"`). -/
def SrcErr.msg : SrcErr → String
  | .eof => "EOF"
  | .other m => m

/-- The underlying sequential character source: the runes it will still
yield, followed by its terminal condition. -/
structure Source where
  chars : List Rune
  err : SrcErr
deriving DecidableEq, Repr

/-- `type bufreader struct { r *bufio.Reader; buf []rune; pos int; err error }`.
`src` is the remaining underlying reader; `buf` caches every rune read from
it so far (trimmed by `Ignore`), `pos` is the read cursor into `buf`
(an `int` in Go, so it may be driven negative by `UnreadRune`), and `err`
is the sticky terminal error. -/
structure Bufreader where
  src : Source
  buf : List Rune
  pos : Int
  err : Option SrcErr
deriving DecidableEq, Repr

/-- `newbufreader` wrapping a fresh source. -/
def newbufreader (s : Source) : Bufreader :=
  { src := s, buf := [], pos := 0, err := none }

/-- `bufreader.ReadRune`: returns the sticky error if set; otherwise serves
from the cache when the cursor is inside it, else pulls one rune from the
underlying source (caching it) or records the source's terminal error.
A negative cursor inside the cache range would be a Go slice-index panic,
modelled as `none`. -/
def Bufreader.ReadRune (br : Bufreader) : Option (Rune × Option SrcErr × Bufreader) :=
  match br.err with
  | some e => some (0, some e, br)
  | none =>
    if br.pos < (br.buf.length : Int) then
      if 0 ≤ br.pos then
        some (br.buf.getD br.pos.toNat 0, none, { br with pos := br.pos + 1 })
      else
        none
    else
      match br.src.chars with
      | c :: rest =>
        some (c, none,
          { br with src := { br.src with chars := rest },
                    buf := br.buf ++ [c], pos := (br.buf.length : Int) + 1 })
      | [] => some (0, some br.src.err, { br with err := some br.src.err })

/-- `bufreader.UnreadRune`: `br.pos--`, returning an error (which the lexer
discards) when the cursor falls below zero. -/
def Bufreader.UnreadRune (br : Bufreader) : Option String × Bufreader :=
  let br1 : Bufreader := { br with pos := br.pos - 1 }
  if br1.pos < 0 then (some "reader position is out of bounds", br1) else (none, br1)

/-- `bufreader.Ignore`: `br.pos = 0; if len(br.buf) > 0 { br.buf = br.buf[len(br.buf)-1:] }` —
keeps only the last cached rune. -/
def Bufreader.Ignore (br : Bufreader) : Bufreader :=
  { br with pos := 0,
            buf := if 0 < br.buf.length then br.buf.drop (br.buf.length - 1) else br.buf }

/-- `type lexer struct { r; tokens; eof; value; pos; tokenPos; prevPos }`.
`tokens` is the ordered list of tokens sent on the output channel so far. -/
structure LexState where
  r : Bufreader
  tokens : List Token
  eof : Bool
  value : List Rune
  pos : Pos
  tokenPos : Pos
  prevPos : List Pos
deriving DecidableEq, Repr

/-- `NewLexer` on a given character source. -/
def NewLexer (s : Source) : LexState :=
  { r := newbufreader s, tokens := [], eof := false, value := [],
    pos := ⟨0, 0, 0⟩, tokenPos := ⟨0, 0, 0⟩, prevPos := [] }

/-- The rune sequence of a Lean string (the inputs involved are ASCII, so
this matches Go's rune decoding of the string). -/
def strRunes (s : String) : List Rune := s.data.map (fun c => (c.toNat : Int))

/-- `NewLexerString`. -/
def NewLexerString (s : String) : LexState :=
  NewLexer { chars := strRunes s, err := .eof }

/-- `lexer.Errorf`: sends an error token carrying the (already formatted)
message and the current position, leaving everything else unchanged.
The Go function's return value is the `nil` state function, modelled where
the driver is defined. -/
def lexer.Errorf (l : LexState) (t : TokenType) (msg : String) : LexState :=
  { l with tokens :=
      l.tokens ++ [⟨t, strRunes msg, l.pos.line, l.pos.col, l.pos.pos, none⟩] }

/-- `lexer.Next`: on a successful read, snapshots the position onto the
`prevPos` stack, advances, and appends the rune to `value`; on a failed
read it reports a non-end-of-stream error via `Errorf`, appends the zero
rune returned by `ReadRune`, sets the `eof` flag and returns the sentinel. -/
def lexer.Next (l : LexState) : Option (Rune × LexState) :=
  match l.r.ReadRune with
  | none => none
  | some (r, some e, br) =>
    let l1 : LexState := { l with r := br }
    let l2 : LexState := if e = SrcErr.eof then l1 else lexer.Errorf l1 TokError e.msg
    some (EOF, { l2 with value := l2.value ++ [r], eof := true })
  | some (r, none, br) =>
    some (r, { l with r := br,
                      prevPos := l.prevPos ++ [l.pos],
                      pos := l.pos.Advance r,
                      value := l.value ++ [r] })

/-- `lexer.Backup`: unreads the reader cursor, drops the last rune of
`value` (a Go slice-bounds panic when `value` is empty, modelled as `none`),
and restores the position from the top of the `prevPos` stack (a Go index
panic when the stack is empty, modelled as `none`). -/
def lexer.Backup (l : LexState) : Option LexState :=
  let br := (l.r.UnreadRune).2
  if l.value = [] then none
  else
    match l.prevPos.getLast? with
    | none => none
    | some prev =>
      some { l with r := br, value := l.value.dropLast,
                    pos := prev, prevPos := l.prevPos.dropLast }

/-- `lexer.Peek`: `r := lex.Next(); lex.Backup(); return r`. -/
def lexer.Peek (l : LexState) : Option (Rune × LexState) :=
  match lexer.Next l with
  | none => none
  | some (r, l1) =>
    match lexer.Backup l1 with
    | none => none
    | some l2 => some (r, l2)

/-- `lexer.Line`. -/
def lexer.Line (l : LexState) : Int := l.pos.line

/-- `lexer.Col`. -/
def lexer.Col (l : LexState) : Int := l.pos.col

/-- `lexer.Pos`. -/
def lexer.Pos (l : LexState) : Int := l.pos.pos

/-- `lexer.Value`. -/
def lexer.Value (l : LexState) : List Rune := l.value

/-- `lexer.Ignore`: records the current position as the token start, clears
the scan buffer, and trims the reader cache. -/
def lexer.Ignore (l : LexState) : LexState :=
  { l with tokenPos := l.pos, value := [], r := l.r.Ignore }

/-- `lexer.EmitExtra`: sends a token packaging the scan buffer and the
recorded token-start position, then performs `Ignore`. -/
def lexer.EmitExtra (l : LexState) (t : TokenType) (extra : Extra) : LexState :=
  let l1 : LexState := { l with tokens :=
    l.tokens ++ [⟨t, l.value, l.tokenPos.line, l.tokenPos.col, l.tokenPos.pos, extra⟩] }
  lexer.Ignore l1

/-- `lexer.Emit`: `lex.EmitExtra(t, nil)`. -/
def lexer.Emit (l : LexState) (t : TokenType) : LexState :=
  lexer.EmitExtra l t none

/-! ### The repository's word-lexer state functions and the `Run` driver

`lex_test.go` defines `lexWord` and `lexSkipSpaces`; the mutually-referring
state functions are deep-embedded as `StateF`, and their internal `for`
loops are unrolled with explicit fuel (`none` on fuel exhaustion; all
concrete runs below are given ample fuel). -/

/-- The names of the repository's test state functions. -/
inductive StateF where
  | lexWord
  | lexSkipSpaces
deriving DecidableEq, Repr

/-- `isSpace` from `lex_test.go`: space, tab, carriage return or newline. -/
def isSpace (r : Rune) : Bool :=
  r = 32 || r = 9 || r = 13 || r = 10

/-- The loop body of `lexWord`: peeks; on a space emits the word and goes to
`lexSkipSpaces`; at end-of-source emits the word and returns the terminal
signal; otherwise consumes the rune and repeats. -/
def lexWordLoop : Nat → LexState → Option (Option StateF × LexState)
  | 0, _ => none
  | fuel + 1, l =>
    match lexer.Peek l with
    | none => none
    | some (r, l1) =>
      if isSpace r then
        some (some .lexSkipSpaces, lexer.Emit l1 TokWord)
      else if r = EOF then
        some (none, lexer.Emit l1 TokWord)
      else
        match lexer.Next l1 with
        | none => none
        | some (_, l2) => lexWordLoop fuel l2

/-- The loop body of `lexSkipSpaces`: consumes while `isSpace`, then backs
up the non-space rune, discards the skipped span, and goes to `lexWord`. -/
def lexSkipSpacesLoop : Nat → LexState → Option (Option StateF × LexState)
  | 0, _ => none
  | fuel + 1, l =>
    match lexer.Next l with
    | none => none
    | some (r, l1) =>
      if isSpace r then lexSkipSpacesLoop fuel l1
      else
        match lexer.Backup l1 with
        | none => none
        | some l2 => some (some .lexWord, lexer.Ignore l2)

/-- Dispatch a deep-embedded state function. -/
def stepState (fuel : Nat) : StateF → LexState → Option (Option StateF × LexState)
  | .lexWord => lexWordLoop fuel
  | .lexSkipSpaces => lexSkipSpacesLoop fuel

/-- `lexer.Run`'s driver loop:
`for state := start; state != nil && !lex.eof; { state = state(lex) }` —
it stops (and the token channel is closed) when the current state is the
`nil` terminal signal or the end-of-source flag is set. A returned
`some l` is a completed run whose sent tokens are `l.tokens`; `none` is
fuel exhaustion and never arises in the concrete runs below. -/
def RunLoop : Nat → Option StateF → LexState → Option LexState
  | _, none, l => some l
  | 0, some _, l => if l.eof then some l else none
  | fuel + 1, some s, l =>
    if l.eof then some l
    else
      match stepState (fuel + 1) s l with
      | none => none
      | some (s1, l1) => RunLoop fuel s1 l1

/-! ### Arbitrary state-function chains as command traces

A state-function chain interacts with the engine only through the API
calls `Next`, `Backup`, `Peek`, `Ignore`, `Emit`, `EmitExtra` and `Errorf`;
an arbitrary chain is therefore modelled as the sequence of API calls it
performs. The trace interpreter additionally instruments the run with the
bookkeeping needed for conservation statements: `consumed` records every
rune appended to the scan buffer by `Next` (the zero rune for a failed
read) minus those removed by `Backup`, and `kept` records, in order, the
text of every token published by `Emit`/`EmitExtra` and every span
discarded by an explicit `Ignore`. -/

/-- One engine API call performed by a state-function chain. -/
inductive Cmd where
  | nextC
  | backupC
  | peekC
  | ignoreC
  | emitC (t : TokenType)
  | emitExtraC (t : TokenType) (e : Extra)
  | errorfC (t : TokenType) (msg : String)
deriving DecidableEq, Repr

/-- A span accounted for by the conservation bookkeeping: either the text
of a token published by `Emit`/`EmitExtra` (with its type tag), or a span
discarded by an explicit `Ignore`. -/
inductive KeptSpan where
  | emitted (t : TokenType) (text : List Rune)
  | ignored (text : List Rune)
deriving DecidableEq, Repr

/-- The engine state together with the conservation instrumentation. -/
structure TraceState where
  lex : LexState
  consumed : List Rune
  kept : List KeptSpan
deriving DecidableEq, Repr

/-- The instrumented trace state for a fresh lexer on input `s`. -/
def initTrace (s : String) : TraceState :=
  { lex := NewLexerString s, consumed := [], kept := [] }

/-- Execute one API call of a state-function chain (`none` models a Go
panic inside the engine). -/
def TraceState.step (ts : TraceState) : Cmd → Option TraceState
  | .nextC =>
    (lexer.Next ts.lex).map fun p =>
      { ts with lex := p.2, consumed := ts.consumed ++ [p.2.value.getLastD 0] }
  | .backupC =>
    (lexer.Backup ts.lex).map fun l =>
      { ts with lex := l, consumed := ts.consumed.dropLast }
  | .peekC =>
    (lexer.Peek ts.lex).map fun p => { ts with lex := p.2 }
  | .ignoreC =>
    some { ts with lex := lexer.Ignore ts.lex,
                   kept := ts.kept ++ [.ignored ts.lex.value] }
  | .emitC t =>
    some { ts with lex := lexer.Emit ts.lex t,
                   kept := ts.kept ++ [.emitted t ts.lex.value] }
  | .emitExtraC t e =>
    some { ts with lex := lexer.EmitExtra ts.lex t e,
                   kept := ts.kept ++ [.emitted t ts.lex.value] }
  | .errorfC t msg =>
    some { ts with lex := lexer.Errorf ts.lex t msg }

/-- Execute a whole command trace. -/
def runTrace : List Cmd → TraceState → Option TraceState
  | [], ts => some ts
  | c :: cs, ts =>
    match ts.step c with
    | none => none
    | some ts1 => runTrace cs ts1

/-- The concatenated text of all accounted spans. -/
def keptText (ks : List KeptSpan) : List Rune :=
  ks.flatMap fun k =>
    match k with
    | .emitted _ v => v
    | .ignored v => v

/-- The concatenated text of the non-error accounted spans: texts of
tokens emitted with a type other than `TokError`, plus all spans
discarded by `Ignore`. -/
def keptTextNonError (ks : List KeptSpan) : List Rune :=
  ks.flatMap fun k =>
    match k with
    | .emitted t v => if t = TokError then [] else v
    | .ignored v => v

/-- The character-conservation property exactly as the specification
states it: for every input and every state-function chain that drives the
engine to completion (the run finishes without a panic, the end-of-source
flag is set, and the scan buffer has been fully emitted or discarded), the
non-error token texts together with the discarded spans concatenate, in
emission order, to the input. -/
def ConservationAsStated : Prop :=
  ∀ (s : String) (cmds : List Cmd) (ts : TraceState),
    runTrace cmds (initTrace s) = some ts →
    ts.lex.eof = true →
    ts.lex.value = [] →
    keptTextNonError ts.kept = strRunes s

/-- The command trace refuting `ConservationAsStated` on input `"a"`:
consume, discard, consume again (the trimmed reader cache re-serves the
already-consumed character), run into end-of-source, back up the zero
rune, and emit. -/
def dupCmds : List Cmd :=
  [.nextC, .ignoreC, .nextC, .nextC, .backupC, .emitC TokWord]

/-- The final trace state of `dupCmds` on input `"a"`. -/
def dupEnd : TraceState := (runTrace dupCmds (initTrace "a")).getD (initTrace "a")

/-- The character source of the specification's broken-reader scenario:
it yields `"foo bar"` and then fails with the non-end-of-stream error
`"broken"`. -/
def brokenSource : Source := { chars := strRunes "foo bar", err := .other "broken" }

/-- A lexer state whose end-of-source flag is set, used to exercise the
driver's stopping condition. -/
def eofDemo : LexState := { NewLexerString "" with eof := true }

/-- The state of a fresh lexer on `"a"` (used by the `Next`-then-`Backup`
analysis). -/
def oneCharLexer : LexState := NewLexerString "a"

/-- `oneCharLexer` after one successful `Next` (which consumed `'a'`). -/
def oneCharAfterNext : LexState :=
  ((lexer.Next oneCharLexer).map Prod.snd).getD oneCharLexer

/-- `oneCharAfterNext` after a further `Next`, which returns the
end-of-source sentinel. -/
def oneCharAfterEof : LexState :=
  ((lexer.Next oneCharAfterNext).map Prod.snd).getD oneCharLexer

/-- The reader state reached by reading the single `'a'` of the witness
input. -/
def oneCharReadDone : Bufreader :=
  { src := { chars := [], err := .eof }, buf := [97], pos := 1, err := none }

/-- The sticky reader of the witness: a fresh empty source already hit
end-of-stream. -/
def emptyReadDone : Bufreader :=
  { src := { chars := [], err := .eof }, buf := [], pos := 0, err := some .eof }

/-- The instrumented state after a single consuming step on `"a"`. -/
def oneNextTrace : TraceState :=
  (runTrace [Cmd.nextC] (initTrace "a")).getD (initTrace "a")

/-- The position reached by advancing the tracker over a list of consumed
runes. -/
def advanceList (p : Pos) (rs : List Rune) : Pos := rs.foldl Pos.Advance p

/-- The column value produced by scanning a rune list starting from
column `c`: reset to zero at each newline, incremented otherwise. -/
def colAfter (c : Int) : List Rune → Int
  | [] => c
  | r :: rs => colAfter (if r = nl then 0 else c + 1) rs

/-- The number of characters after the most recent newline of `rs`
(all of `rs` when it has no newline): the specification's description of
the column. -/
def sinceLastNl (rs : List Rune) : Int :=
  ((rs.reverse.takeWhile fun r => r != nl).length : Int)

/-- Iterate `Next` a given number of times, keeping only the state. -/
def nextIter : Nat → LexState → LexState
  | 0, l => l
  | k + 1, l =>
    match lexer.Next l with
    | none => l
    | some (_, l1) => nextIter k l1

/-- The position snapshots that `Next` pushed while consuming `pre`:
the position at the start of each consumed rune. -/
def prefixPositions (pre : List Rune) : List Pos :=
  (List.range pre.length).map fun i => advanceList ⟨0, 0, 0⟩ (pre.take i)

/-- The engine state after a fresh lexer has plainly consumed `pre`, with
`post` still unread. -/
def mkFresh (pre post : List Rune) (e : SrcErr) : LexState :=
  { r := { src := { chars := post, err := e }, buf := pre,
           pos := (pre.length : Int), err := none },
    tokens := [], eof := false, value := pre,
    pos := advanceList ⟨0, 0, 0⟩ pre, tokenPos := ⟨0, 0, 0⟩,
    prevPos := prefixPositions pre }

/-- The `prevPos` stack seen from the top (reversed): each snapshot's
offset is one less than the offset above it, the topmost being one less
than the current offset `x`. -/
def chainR : Int → List Pos → Prop
  | _, [] => True
  | x, p :: rest => p.pos + 1 = x ∧ chainR p.pos rest

/-- The inductive engine invariant: until the end-of-source flag is set,
the current offset exceeds the token-start offset by exactly the scan
buffer's length, and the `prevPos` stack offsets descend one by one from
the current offset. -/
def EngineInv (l : LexState) : Prop :=
  l.eof = false →
    (l.pos.pos - l.tokenPos.pos = (l.value.length : Int)
      ∧ chainR l.pos.pos l.prevPos.reverse)

/-- The state update of `lexer.Next`'s successful branch, named for use
in inversion lemmas. -/
def nextSuccState (l : LexState) (br : Bufreader) (x : Rune) : LexState :=
  { l with r := br, prevPos := l.prevPos ++ [l.pos],
           pos := l.pos.Advance x, value := l.value ++ [x] }

/-- The state update of a successful `lexer.Backup`, named for use in
inversion lemmas. -/
def backupSuccState (l : LexState) (prev : Pos) : LexState :=
  { l with r := (l.r.UnreadRune).2, value := l.value.dropLast,
           pos := prev, prevPos := l.prevPos.dropLast }

/-- The position-tracking invariant along an instrumented trace: until
the end-of-source flag is set, the engine's position is the fold of
`Advance` over the net consumed rune stream, and the `prevPos` stack
holds exactly the positions at the start of each net-consumed rune. -/
def PosConsInv (ts : TraceState) : Prop :=
  ts.lex.eof = false →
    (ts.lex.pos = advanceList ⟨0, 0, 0⟩ ts.consumed
      ∧ ts.lex.prevPos = prefixPositions ts.consumed)

/-- The instrumented state after a single consuming step on `"a\nb"`. -/
def nlOneNextTrace : TraceState :=
  (runTrace [Cmd.nextC] (initTrace "a\nb")).getD (initTrace "a\nb")

/-! ### Claim theorems -/

/-- **C3.** `Emit`/`EmitExtra` publish a token whose text is exactly the
current scan buffer and whose position fields are the recorded
token-start position; afterwards the scan buffer is empty and the
start-position marker equals the current position (and `Ignore` likewise
resets the start-position marker to the current position, so the marker
is always the position immediately after the previous emit/ignore). -/
theorem emitPackagesBuffer (l : LexState) (t : TokenType) (e : Extra) :
    (lexer.EmitExtra l t e).tokens
      = l.tokens ++ [⟨t, l.value, l.tokenPos.line, l.tokenPos.col, l.tokenPos.pos, e⟩]
    ∧ (lexer.EmitExtra l t e).value = []
    ∧ (lexer.EmitExtra l t e).tokenPos = (lexer.EmitExtra l t e).pos
    ∧ (lexer.EmitExtra l t e).pos = l.pos
    ∧ lexer.Emit l t = lexer.EmitExtra l t none
    ∧ (lexer.Ignore l).tokenPos = l.pos :=
  ⟨rfl, rfl, rfl, rfl, rfl, rfl⟩

/-- **C7.** `Errorf` publishes exactly one token carrying the formatted
message and the engine's *current* position (not the buffered span's
start), leaves the scan buffer, positions, reader and end-of-source flag
unchanged, and returns normally; its returned state value is the `nil`
terminal signal, on which the driver runs no further state function. -/
theorem errorfBehavior (l : LexState) (t : TokenType) (msg : String) :
    (lexer.Errorf l t msg).tokens
      = l.tokens ++ [⟨t, strRunes msg, l.pos.line, l.pos.col, l.pos.pos, none⟩]
    ∧ (lexer.Errorf l t msg).value = l.value
    ∧ (lexer.Errorf l t msg).pos = l.pos
    ∧ (lexer.Errorf l t msg).tokenPos = l.tokenPos
    ∧ (lexer.Errorf l t msg).eof = l.eof
    ∧ (lexer.Errorf l t msg).r = l.r
    ∧ (∀ fuel l2, RunLoop fuel none l2 = some l2) :=
  ⟨rfl, rfl, rfl, rfl, rfl, rfl, fun fuel _ => by cases fuel <;> rfl⟩

/-- **C8.** When no consumed character is pending to be undone (the
`prevPos` stack is empty, i.e. every successful `Next` has already been
backed up), `Backup` does not return normally: it fails with a Go
run-time panic (out-of-range slice index), modelled as `none` — rather
than silently corrupting position or buffer state. -/
theorem backupWithoutPending (l : LexState) (h : l.prevPos = []) :
    lexer.Backup l = none := by
  cases hv : l.value <;> simp [lexer.Backup, h, hv]

/-- Witness for `backupWithoutPending`: a fresh lexer has nothing to undo
and `Backup` panics on it. -/
theorem backupWithoutPending_w : lexer.Backup (NewLexerString "ab") = none :=
  backupWithoutPending (NewLexerString "ab") rfl

/-- **C6.** Scenario A: running the word lexer (skipping space runs,
emitting maximal non-space runs) on `"  foo bar\n    baz    "` completes
(the driver finishes, closing the stream) having delivered exactly
`"foo"`@(0,2,2), `"bar"`@(0,6,6) and `"baz"`@(1,4,14). -/
theorem scenarioWordRun :
    (RunLoop 99 (some .lexSkipSpaces) (NewLexerString "  foo bar\n    baz    ")).map
        (fun l => l.tokens)
      = some [⟨TokWord, strRunes "foo", 0, 2, 2, none⟩,
              ⟨TokWord, strRunes "bar", 0, 6, 6, none⟩,
              ⟨TokWord, strRunes "baz", 1, 4, 14, none⟩] := by
  decide

/-- **C1 (counterexample).** On the broken-reader scenario the stream does
not close right after the error token: the in-flight state function still
emits the buffered word `"bar"`@(0,4,4) after the error token, so the run
delivers three tokens, not the claimed two. -/
theorem errorTokenNotTerminal_cex :
    (RunLoop 99 (some .lexSkipSpaces) (NewLexer brokenSource)).map (fun l => l.tokens)
      = some [⟨TokWord, strRunes "foo", 0, 0, 0, none⟩,
              ⟨TokError, strRunes "broken", 0, 7, 7, none⟩,
              ⟨TokWord, strRunes "bar", 0, 4, 4, none⟩]
    ∧ (RunLoop 99 (some .lexSkipSpaces) (NewLexer brokenSource)).map (fun l => l.tokens)
      ≠ some [⟨TokWord, strRunes "foo", 0, 0, 0, none⟩,
              ⟨TokError, strRunes "broken", 0, 7, 7, none⟩] := by
  decide

/-- **C1 (amended).** A source-read failure inside `Next` publishes the
error token and sets the end-of-source flag, and the driver invokes no
further state function once that flag is set — but the state function in
flight may still emit: the broken `"foo bar"` source delivers exactly
`"foo"`@(0,0,0), the error token `"broken"` at offset 7, and then the
buffered word `"bar"`@(0,4,4), after which the stream closes. -/
theorem brokenSourceRun :
    ((RunLoop 99 (some .lexSkipSpaces) (NewLexer brokenSource)).map (fun l => l.tokens)
      = some [⟨TokWord, strRunes "foo", 0, 0, 0, none⟩,
              ⟨TokError, strRunes "broken", 0, 7, 7, none⟩,
              ⟨TokWord, strRunes "bar", 0, 4, 4, none⟩])
    ∧ (∀ fuel st l, l.eof = true → RunLoop fuel st l = some l) := by
  refine ⟨by decide, ?_⟩
  intro fuel st l h
  cases st with
  | none => cases fuel <;> rfl
  | some s => cases fuel <;> simp [RunLoop, h]

/-- Witness for `brokenSourceRun`: the driver does nothing on a state with
the end-of-source flag set. -/
theorem brokenSourceRun_w : RunLoop 5 (some .lexWord) eofDemo = some eofDemo :=
  brokenSourceRun.2 5 (some .lexWord) eofDemo rfl

/-- **C2 (counterexample).** The conservation property as stated is false:
on input `"a"`, the chain `dupCmds` drives the engine to completion (no
panic, end-of-source reached, scan buffer empty) yet the non-error token
texts plus discarded spans concatenate to `"aa"` — `Ignore` trims the
reader cache to its last character even when that character was already
consumed, so the next read re-serves it and the character is duplicated. -/
theorem charConservation_cex : ¬ ConservationAsStated := by
  intro h
  have h2 := h "a" dupCmds dupEnd (by decide) (by decide) (by decide)
  exact absurd h2 (by decide)

/-- **C4 (counterexample).** `Next(); Backup()` does *not* restore the
position when `Next` returns the end-of-source sentinel: on input `"a"`,
after consuming `'a'` (position (0,1,1)) a second `Next` returns the
sentinel, and `Backup` then restores the scan buffer but sets the
position from the stale `prevPos` stack entry, yielding (0,0,0). -/
theorem backupAfterEofNext_cex :
    lexer.Next oneCharAfterNext = some (EOF, oneCharAfterEof)
    ∧ (lexer.Backup oneCharAfterEof).map (fun l => l.value)
        = some oneCharAfterNext.value
    ∧ (lexer.Backup oneCharAfterEof).map (fun l => l.pos)
        ≠ some oneCharAfterNext.pos
    ∧ (lexer.Backup oneCharAfterEof).map (fun l => l.pos) = some ⟨0, 0, 0⟩
    ∧ oneCharAfterNext.pos = ⟨0, 1, 1⟩ := by
  decide

/-- A failed `ReadRune` returns the zero rune and leaves the reader with
its sticky error set. -/
theorem readRune_fail_sticky (br br' : Bufreader) (r : Rune) (e : SrcErr)
    (h : br.ReadRune = some (r, some e, br')) : r = 0 ∧ br'.err = some e := by
  rcases he : br.err with _ | e0
  · rcases hc : br.src.chars with _ | ⟨c, rest⟩ <;>
      simp only [Bufreader.ReadRune, he, hc] at h
    · split at h
      · split at h
        · simp at h
        · simp at h
      · simp only [Option.some.injEq, Prod.mk.injEq] at h
        obtain ⟨h1, h2, h3⟩ := h
        refine ⟨h1.symm, ?_⟩
        rw [← h3]
        simpa using h2
    · split at h
      · split at h
        · simp at h
        · simp at h
      · simp at h
  · simp only [Bufreader.ReadRune, he, Option.some.injEq, Prod.mk.injEq] at h
    obtain ⟨h1, h2, h3⟩ := h
    refine ⟨h1.symm, ?_⟩
    rw [← h3, he]
    simpa using h2

/-- **C4 (amended).** Whenever `Next` actually consumes a character (the
underlying read succeeds), an immediate `Backup` restores the position,
the scan buffer, the `prevPos` stack and the token-start marker to
exactly their values before the `Next`; the restoration fails only for
the end-of-source sentinel case refuted above. -/
theorem backupRestoresAfterNext (l : LexState) (r : Rune) (br : Bufreader)
    (h : l.r.ReadRune = some (r, none, br)) :
    (lexer.Next l).map Prod.fst = some r
    ∧ ((lexer.Next l).bind fun p => lexer.Backup p.2).map
        (fun l2 => (l2.pos, l2.value, l2.prevPos, l2.tokenPos))
      = some (l.pos, l.value, l.prevPos, l.tokenPos) := by
  constructor
  · simp [lexer.Next, h]
  · simp [lexer.Next, h, lexer.Backup]

/-- Witness for `backupRestoresAfterNext`, at a fresh lexer on `"a"`. -/
theorem backupRestoresAfterNext_w :
    (lexer.Next oneCharLexer).map Prod.fst = some 97
    ∧ ((lexer.Next oneCharLexer).bind fun p => lexer.Backup p.2).map
        (fun l2 => (l2.pos, l2.value, l2.prevPos, l2.tokenPos))
      = some (oneCharLexer.pos, oneCharLexer.value, oneCharLexer.prevPos,
              oneCharLexer.tokenPos) :=
  backupRestoresAfterNext oneCharLexer 97 oneCharReadDone (by decide)

/-- **C9.** When `Next` fails to read — at ordinary end-of-source exactly
as on a read error — it returns the `EOF` sentinel yet still appends the
zero rune to the scan buffer without advancing the position; the failure
is sticky, so every further `Next` appends one more zero rune, and an
`Emit`/`EmitExtra` before any `Backup` packages the zero rune into the
published token's text. -/
theorem nextAtEofAppendsZero (l : LexState) (e : SrcErr) (br : Bufreader)
    (h : l.r.ReadRune = some (0, some e, br)) :
    (lexer.Next l).map (fun p => (p.1, p.2.value, p.2.pos, p.2.eof))
      = some (EOF, l.value ++ [0], l.pos, true)
    ∧ ((lexer.Next l).bind fun p => lexer.Next p.2).map
        (fun p => (p.1, p.2.value, p.2.pos, p.2.eof))
      = some (EOF, l.value ++ [0, 0], l.pos, true)
    ∧ ∀ (t : TokenType) (ex : Extra),
        ((lexer.Next l).map fun p =>
            ((lexer.EmitExtra p.2 t ex).tokens.getLast?).map Token.value)
          = some (some (l.value ++ [0])) := by
  have hst := readRune_fail_sticky l.r br 0 e h
  have hbr : br.ReadRune = some (0, some e, br) := by
    unfold Bufreader.ReadRune
    rw [hst.2]
  by_cases he : e = SrcErr.eof <;>
    refine ⟨?_, ?_, ?_⟩ <;>
    simp [lexer.Next, h, hbr, he, lexer.Errorf, lexer.EmitExtra, lexer.Ignore]

/-- Witness for `nextAtEofAppendsZero`, at a fresh lexer on the empty
string. -/
theorem nextAtEofAppendsZero_w :
    (lexer.Next (NewLexerString "")).map (fun p => (p.1, p.2.value, p.2.pos, p.2.eof))
      = some (EOF, [0], (NewLexerString "").pos, true)
    ∧ ((lexer.Next (NewLexerString "")).bind fun p => lexer.Next p.2).map
        (fun p => (p.1, p.2.value, p.2.pos, p.2.eof))
      = some (EOF, [0, 0], (NewLexerString "").pos, true)
    ∧ ∀ (t : TokenType) (ex : Extra),
        ((lexer.Next (NewLexerString "")).map fun p =>
            ((lexer.EmitExtra p.2 t ex).tokens.getLast?).map Token.value)
          = some (some [0]) := by
  have h := nextAtEofAppendsZero (NewLexerString "") .eof emptyReadDone (by decide)
  simpa using h

/-! ### Conservation of the consumed character stream (C2, amended) -/

/-- Whatever `Next` does, it extends the scan buffer by exactly one rune
(the consumed character, or the zero rune on a failed read). -/
theorem next_extends_value (l : LexState) (r : Rune) (l1 : LexState)
    (h : lexer.Next l = some (r, l1)) :
    ∃ x, l1.value = l.value ++ [x] := by
  unfold lexer.Next at h
  rcases hrr : l.r.ReadRune with _ | ⟨r0, _ | e, br⟩ <;> rw [hrr] at h
  · simp at h
  · simp only [Option.some.injEq, Prod.mk.injEq] at h
    exact ⟨r0, by rw [← h.2]⟩
  · simp only [Option.some.injEq, Prod.mk.injEq] at h
    refine ⟨r0, ?_⟩
    rw [← h.2]
    by_cases he : e = SrcErr.eof <;> simp [he, lexer.Errorf]

/-- A successful `Backup` requires a nonempty scan buffer and drops
exactly its last rune. -/
theorem backup_shape (l : LexState) (l1 : LexState)
    (h : lexer.Backup l = some l1) :
    l.value ≠ [] ∧ l1.value = l.value.dropLast := by
  unfold lexer.Backup at h
  by_cases hv : l.value = []
  · rw [if_pos hv] at h
    simp at h
  · rw [if_neg hv] at h
    rcases hp : l.prevPos.getLast? with _ | prev <;> rw [hp] at h
    · simp at h
    · simp only [Option.some.injEq] at h
      exact ⟨hv, by rw [← h]⟩

/-- `Peek` leaves the scan buffer unchanged. -/
theorem peek_keeps_value (l : LexState) (r : Rune) (l1 : LexState)
    (h : lexer.Peek l = some (r, l1)) : l1.value = l.value := by
  unfold lexer.Peek at h
  rcases hn : lexer.Next l with _ | ⟨r0, la⟩ <;> simp only [hn] at h
  · exact absurd h (by simp)
  · rcases hb : lexer.Backup la with _ | lb <;> simp only [hb] at h
    · exact absurd h (by simp)
    · simp only [Option.some.injEq, Prod.mk.injEq] at h
      obtain ⟨x, hx⟩ := next_extends_value l r0 la hn
      have hd := (backup_shape la lb hb).2
      rw [← h.2, hd, hx, List.dropLast_concat]

/-- Dropping the last element of a nonempty right factor commutes with
the append. -/
theorem append_dropLast (K v : List Rune) (h : v ≠ []) :
    (K ++ v).dropLast = K ++ v.dropLast := by
  induction v using List.reverseRecOn with
  | nil => exact absurd rfl h
  | append_singleton v0 a _ =>
    rw [← List.append_assoc, List.dropLast_concat, List.dropLast_concat]

/-- One instrumented step preserves the conservation equation: the
accounted spans followed by the residual scan buffer equal the net
consumed rune stream. -/
theorem step_conserves (ts ts' : TraceState) (c : Cmd)
    (hi : keptText ts.kept ++ ts.lex.value = ts.consumed)
    (h : ts.step c = some ts') :
    keptText ts'.kept ++ ts'.lex.value = ts'.consumed := by
  cases c with
  | nextC =>
    unfold TraceState.step at h
    rcases hn : lexer.Next ts.lex with _ | ⟨r, l1⟩ <;> simp only [hn] at h
    · exact absurd h (by simp)
    · simp only [Option.map_some', Option.some.injEq] at h
      obtain ⟨x, hx⟩ := next_extends_value ts.lex r l1 hn
      subst h
      simp only [hx, List.getLastD_concat, ← List.append_assoc, hi]
  | backupC =>
    unfold TraceState.step at h
    rcases hb : lexer.Backup ts.lex with _ | l1 <;> simp only [hb] at h
    · exact absurd h (by simp)
    · simp only [Option.map_some', Option.some.injEq] at h
      obtain ⟨hv, hd⟩ := backup_shape ts.lex l1 hb
      subst h
      simp only [hd, ← hi, append_dropLast _ _ hv]
  | peekC =>
    unfold TraceState.step at h
    rcases hp : lexer.Peek ts.lex with _ | ⟨r, l1⟩ <;> simp only [hp] at h
    · exact absurd h (by simp)
    · simp only [Option.map_some', Option.some.injEq] at h
      subst h
      simpa [peek_keeps_value ts.lex r l1 hp] using hi
  | ignoreC =>
    unfold TraceState.step at h
    simp only [Option.some.injEq] at h
    subst h
    simpa [keptText, lexer.Ignore] using hi
  | emitC t =>
    unfold TraceState.step at h
    simp only [Option.some.injEq] at h
    subst h
    simpa [keptText, lexer.Emit, lexer.EmitExtra, lexer.Ignore] using hi
  | emitExtraC t e =>
    unfold TraceState.step at h
    simp only [Option.some.injEq] at h
    subst h
    simpa [keptText, lexer.EmitExtra, lexer.Ignore] using hi
  | errorfC t msg =>
    unfold TraceState.step at h
    simp only [Option.some.injEq] at h
    subst h
    simpa [lexer.Errorf] using hi

/-- **C2 (amended).** For every input and *every* state-function chain
(no completion requirement), the concatenation, in emission order, of
the texts of all tokens published by `Emit`/`EmitExtra` and of all spans
discarded by `Ignore`, followed by the residual scan buffer, equals the
net stream of runes the engine consumed — every rune `Next` appended
(with a zero rune for each failed read) minus those undone by `Backup`.
The consumed stream, not the input itself, is conserved: after an
`Ignore` with no pending unread rune the trimmed reader cache re-serves
the last character, so the consumed stream may duplicate input
characters (`charConservation_cex`). -/
theorem spanConservation (s : String) (cmds : List Cmd) (ts : TraceState)
    (h : runTrace cmds (initTrace s) = some ts) :
    keptText ts.kept ++ ts.lex.value = ts.consumed := by
  suffices H : ∀ (cs : List Cmd) (ts0 ts1 : TraceState),
      runTrace cs ts0 = some ts1 →
      keptText ts0.kept ++ ts0.lex.value = ts0.consumed →
      keptText ts1.kept ++ ts1.lex.value = ts1.consumed by
    exact H cmds (initTrace s) ts h (by simp [initTrace, keptText, NewLexerString, NewLexer])
  intro cs
  induction cs with
  | nil =>
    intro ts0 ts1 h1 hi
    simp only [runTrace, Option.some.injEq] at h1
    rwa [← h1]
  | cons c cs ih =>
    intro ts0 ts1 h1 hi
    unfold runTrace at h1
    rcases hs : ts0.step c with _ | ts2 <;> rw [hs] at h1
    · simp at h1
    · exact ih ts2 ts1 h1 (step_conserves ts0 ts2 c hi hs)

/-- Witness for `spanConservation`: the conservation equation at the
concrete one-step trace on `"a"`. -/
theorem spanConservation_w :
    keptText oneNextTrace.kept ++ oneNextTrace.lex.value = oneNextTrace.consumed :=
  spanConservation "a" [Cmd.nextC] oneNextTrace (by decide)

/-! ### The position invariant (C5) -/

theorem advance_pos (p : Pos) (r : Rune) : (p.Advance r).pos = p.pos + 1 := by
  unfold Pos.Advance
  split <;> rfl

theorem advance_line (p : Pos) (r : Rune) :
    (p.Advance r).line = p.line + if r = nl then 1 else 0 := by
  unfold Pos.Advance
  split <;> simp

theorem advance_col (p : Pos) (r : Rune) :
    (p.Advance r).col = if r = nl then 0 else p.col + 1 := by
  unfold Pos.Advance
  split <;> simp_all

theorem advanceList_concat (p : Pos) (rs : List Rune) (r : Rune) :
    advanceList p (rs ++ [r]) = (advanceList p rs).Advance r := by
  simp [advanceList, List.foldl_append]

theorem advanceList_pos (p : Pos) (rs : List Rune) :
    (advanceList p rs).pos = p.pos + rs.length := by
  induction rs generalizing p with
  | nil => simp [advanceList]
  | cons r rs ih =>
    have : advanceList p (r :: rs) = advanceList (p.Advance r) rs := rfl
    rw [this, ih, advance_pos]
    simp only [List.length_cons]
    push_cast
    ring

theorem advanceList_line (p : Pos) (rs : List Rune) :
    (advanceList p rs).line = p.line + rs.count nl := by
  induction rs generalizing p with
  | nil => simp [advanceList]
  | cons r rs ih =>
    have h1 : advanceList p (r :: rs) = advanceList (p.Advance r) rs := rfl
    rw [h1, ih, advance_line, List.count_cons]
    by_cases hr : r = nl
    · simp only [hr, if_pos rfl, beq_self_eq_true, if_true]
      push_cast
      ring
    · simp [hr]

theorem advanceList_col (p : Pos) (rs : List Rune) :
    (advanceList p rs).col = colAfter p.col rs := by
  induction rs generalizing p with
  | nil => rfl
  | cons r rs ih =>
    have h1 : advanceList p (r :: rs) = advanceList (p.Advance r) rs := rfl
    rw [h1, ih, advance_col]
    rfl

theorem sinceLastNl_concat_ne (rs : List Rune) (r : Rune) (h : ¬r = nl) :
    sinceLastNl (rs ++ [r]) = sinceLastNl rs + 1 := by
  simp [sinceLastNl, List.takeWhile_cons, h]

theorem sinceLastNl_concat_nl (rs : List Rune) :
    sinceLastNl (rs ++ [nl]) = 0 := by
  simp [sinceLastNl, List.takeWhile_cons]

theorem colAfter_concat (c : Int) (rs : List Rune) (r : Rune) :
    colAfter c (rs ++ [r]) = if r = nl then 0 else colAfter c rs + 1 := by
  induction rs generalizing c with
  | nil => rfl
  | cons x rs ih =>
    simp only [List.cons_append, colAfter]
    exact ih _

theorem colAfter_eq_sinceLastNl (c : Int) (rs : List Rune) :
    colAfter c rs = if nl ∈ rs then sinceLastNl rs else c + rs.length := by
  induction rs using List.reverseRecOn with
  | nil => simp [colAfter]
  | append_singleton rs r ih =>
    rw [colAfter_concat, ih]
    by_cases hr : r = nl
    · subst hr
      simp [sinceLastNl_concat_nl]
    · by_cases hm : nl ∈ rs
      · simp [hm, hr, sinceLastNl_concat_ne rs r hr]
      · have hnr : ¬nl = r := fun hc => hr hc.symm
        have hmem : ¬nl ∈ rs ++ [r] := by simp [hm, hnr]
        simp [hm, hr, hmem]
        ring

theorem newPosChain_mkFresh (s : Source) : NewLexer s = mkFresh [] s.chars s.err := by
  simp [NewLexer, mkFresh, prefixPositions, advanceList, newbufreader]

theorem prefixPositions_concat (pre : List Rune) (c : Rune) :
    prefixPositions (pre ++ [c])
      = prefixPositions pre ++ [advanceList ⟨0, 0, 0⟩ pre] := by
  unfold prefixPositions
  have hlen : (pre ++ [c]).length = pre.length + 1 := by simp
  rw [hlen]
  have hr : List.range (pre.length + 1) = List.range pre.length ++ [pre.length] :=
    List.range_succ pre.length
  rw [hr, List.map_append]
  congr 1
  · apply List.map_congr_left
    intro i hi
    rw [List.take_append_of_le_length (le_of_lt (List.mem_range.mp hi))]
  · simp [List.take_append_of_le_length (le_refl pre.length)]

theorem next_mkFresh (pre : List Rune) (c : Rune) (post : List Rune) (e : SrcErr) :
    lexer.Next (mkFresh pre (c :: post) e) = some (c, mkFresh (pre ++ [c]) post e) := by
  have hrr : (mkFresh pre (c :: post) e).r.ReadRune
      = some (c, none,
          { src := { chars := post, err := e }, buf := pre ++ [c],
            pos := (pre.length : Int) + 1, err := none }) := by
    unfold Bufreader.ReadRune mkFresh
    simp
  simp only [lexer.Next, hrr]
  unfold mkFresh
  rw [prefixPositions_concat pre c, advanceList_concat ⟨0, 0, 0⟩ pre c]
  simp

theorem nextIter_mkFresh (k : Nat) (pre post : List Rune) (e : SrcErr)
    (h : k ≤ post.length) :
    nextIter k (mkFresh pre post e)
      = mkFresh (pre ++ post.take k) (post.drop k) e := by
  induction k generalizing pre post with
  | zero => simp [nextIter]
  | succ k ih =>
    cases post with
    | nil => simp at h
    | cons c post =>
      have h1 : nextIter (k + 1) (mkFresh pre (c :: post) e)
          = nextIter k (mkFresh (pre ++ [c]) post e) := by
        simp [nextIter, next_mkFresh]
      rw [h1, ih (pre ++ [c]) post (Nat.le_of_succ_le_succ (by simpa using h))]
      simp [List.take_succ_cons, List.drop_succ_cons, List.append_assoc]

/-- After a fresh lexer has plainly consumed any `k`-character prefix of
the input, `Pos()` is `k` (characters, not bytes), `Line()` is the number
of newline characters in that prefix, and `Col()` is the number of
characters after the most recent newline of the prefix (all of it when
the prefix has none). -/
theorem positionInvariant_plain (s : String) (k : Nat) (h : k ≤ (strRunes s).length) :
    lexer.Pos (nextIter k (NewLexerString s)) = (k : Int)
    ∧ lexer.Line (nextIter k (NewLexerString s))
        = (((strRunes s).take k).count nl : Int)
    ∧ lexer.Col (nextIter k (NewLexerString s))
        = sinceLastNl ((strRunes s).take k) := by
  have h0 : NewLexerString s = mkFresh [] (strRunes s) .eof := by
    simpa [NewLexerString] using newPosChain_mkFresh { chars := strRunes s, err := .eof }
  rw [h0, nextIter_mkFresh k [] _ _ h]
  simp only [mkFresh, lexer.Pos, lexer.Line, lexer.Col, List.nil_append]
  refine ⟨?_, ?_, ?_⟩
  · rw [advanceList_pos]
    simp [List.length_take_of_le h]
  · rw [advanceList_line]
    simp
  · rw [advanceList_col, colAfter_eq_sinceLastNl]
    by_cases hm : nl ∈ (strRunes s).take k
    · simp [hm]
    · simp only [hm, if_false]
      unfold sinceLastNl
      rw [List.takeWhile_eq_self_iff.mpr ?hall]
      · simp
      case hall =>
        intro a ha
        have : a ∈ (strRunes s).take k := List.mem_reverse.mp ha
        have hne : ¬a = nl := fun hc => hm (hc ▸ this)
        simpa using fun hc => hne hc

/-! ### The scan-span length invariant (C10) -/

/-- Full inversion of a `Next` result: either a successful consumption
with the exact state update, or a failed read that set the end-of-source
flag. -/
theorem next_full_shape (l : LexState) (r : Rune) (l1 : LexState)
    (h : lexer.Next l = some (r, l1)) :
    (∃ x br, l1 = nextSuccState l br x) ∨ l1.eof = true := by
  unfold lexer.Next at h
  rcases hrr : l.r.ReadRune with _ | ⟨r0, _ | e, br⟩ <;> rw [hrr] at h
  · simp at h
  · simp only [Option.some.injEq, Prod.mk.injEq] at h
    exact Or.inl ⟨r0, br, h.2.symm⟩
  · right
    simp only [Option.some.injEq, Prod.mk.injEq] at h
    rw [← h.2]

/-- Full inversion of a successful `Backup`. -/
theorem backup_full_shape (l l1 : LexState) (h : lexer.Backup l = some l1) :
    ∃ prev, l.prevPos.getLast? = some prev ∧ l.value ≠ []
      ∧ l1 = backupSuccState l prev := by
  unfold lexer.Backup at h
  by_cases hv : l.value = []
  · rw [if_pos hv] at h
    simp at h
  · rw [if_neg hv] at h
    rcases hp : l.prevPos.getLast? with _ | prev <;> rw [hp] at h
    · simp at h
    · simp only [Option.some.injEq] at h
      exact ⟨prev, rfl, hv, h.symm⟩

/-- A list whose `getLast?` is `some p` is its own `dropLast` followed
by `p`. -/
theorem getLast?_decomp (l : List Pos) (p : Pos) (h : l.getLast? = some p) :
    l = l.dropLast ++ [p] := by
  have hne : l ≠ [] := by
    rintro rfl
    simp at h
  have h2 := List.dropLast_append_getLast hne
  rw [List.getLast?_eq_getLast l hne, Option.some.injEq] at h
  rw [h] at h2
  exact h2.symm

theorem engineInv_next (l : LexState) (r : Rune) (l1 : LexState)
    (hinv : EngineInv l) (h : lexer.Next l = some (r, l1)) : EngineInv l1 := by
  intro he1
  rcases next_full_shape l r l1 h with ⟨x, br, rfl⟩ | heof
  · have he0 : l.eof = false := he1
    obtain ⟨hspan, hchain⟩ := hinv he0
    unfold nextSuccState
    constructor
    · simp only [advance_pos, List.length_append, List.length_cons, List.length_nil]
      omega
    · simp only [List.reverse_append, List.reverse_cons, List.reverse_nil,
        List.nil_append, List.singleton_append]
      exact ⟨by rw [advance_pos], hchain⟩
  · rw [heof] at he1
    exact absurd he1 (by simp)

theorem engineInv_backup (l l1 : LexState)
    (hinv : EngineInv l) (h : lexer.Backup l = some l1) : EngineInv l1 := by
  intro he1
  obtain ⟨prev, hp, hv, rfl⟩ := backup_full_shape l l1 h
  have he0 : l.eof = false := he1
  obtain ⟨hspan, hchain⟩ := hinv he0
  rw [getLast?_decomp l.prevPos prev hp, List.reverse_append, List.reverse_cons,
    List.reverse_nil, List.nil_append, List.singleton_append] at hchain
  obtain ⟨hc1, hc2⟩ := hchain
  have hlen : 0 < l.value.length := List.length_pos.mpr hv
  unfold backupSuccState
  constructor
  · simp only [List.length_dropLast]
    omega
  · exact hc2

theorem engineInv_peek (l : LexState) (r : Rune) (l1 : LexState)
    (hinv : EngineInv l) (h : lexer.Peek l = some (r, l1)) : EngineInv l1 := by
  unfold lexer.Peek at h
  rcases hn : lexer.Next l with _ | ⟨r0, la⟩ <;> simp only [hn] at h
  · exact absurd h (by simp)
  · rcases hb : lexer.Backup la with _ | lb <;> simp only [hb] at h
    · exact absurd h (by simp)
    · simp only [Option.some.injEq, Prod.mk.injEq] at h
      rw [← h.2]
      exact engineInv_backup la lb (engineInv_next l r0 la hinv hn) hb

theorem engineInv_ignore (l : LexState) (hinv : EngineInv l) :
    EngineInv (lexer.Ignore l) := by
  intro he1
  obtain ⟨_, hchain⟩ := hinv he1
  exact ⟨by simp [lexer.Ignore], hchain⟩

theorem engineInv_emitExtra (l : LexState) (t : TokenType) (e : Extra)
    (hinv : EngineInv l) : EngineInv (lexer.EmitExtra l t e) := by
  intro he1
  obtain ⟨_, hchain⟩ := hinv he1
  exact ⟨by simp [lexer.EmitExtra, lexer.Ignore], hchain⟩

theorem engineInv_errorf (l : LexState) (t : TokenType) (msg : String)
    (hinv : EngineInv l) : EngineInv (lexer.Errorf l t msg) := by
  intro he1
  obtain ⟨hspan, hchain⟩ := hinv he1
  exact ⟨hspan, hchain⟩

theorem engineInv_step (ts ts' : TraceState) (c : Cmd)
    (hinv : EngineInv ts.lex) (h : ts.step c = some ts') : EngineInv ts'.lex := by
  cases c with
  | nextC =>
    unfold TraceState.step at h
    rcases hn : lexer.Next ts.lex with _ | ⟨r, l1⟩ <;> simp only [hn] at h
    · exact absurd h (by simp)
    · simp only [Option.map_some', Option.some.injEq] at h
      subst h
      exact engineInv_next ts.lex r l1 hinv hn
  | backupC =>
    unfold TraceState.step at h
    rcases hb : lexer.Backup ts.lex with _ | l1 <;> simp only [hb] at h
    · exact absurd h (by simp)
    · simp only [Option.map_some', Option.some.injEq] at h
      subst h
      exact engineInv_backup ts.lex l1 hinv hb
  | peekC =>
    unfold TraceState.step at h
    rcases hp : lexer.Peek ts.lex with _ | ⟨r, l1⟩ <;> simp only [hp] at h
    · exact absurd h (by simp)
    · simp only [Option.map_some', Option.some.injEq] at h
      subst h
      exact engineInv_peek ts.lex r l1 hinv hp
  | ignoreC =>
    unfold TraceState.step at h
    simp only [Option.some.injEq] at h
    subst h
    exact engineInv_ignore ts.lex hinv
  | emitC t =>
    unfold TraceState.step at h
    simp only [Option.some.injEq] at h
    subst h
    exact engineInv_emitExtra ts.lex t none hinv
  | emitExtraC t e =>
    unfold TraceState.step at h
    simp only [Option.some.injEq] at h
    subst h
    exact engineInv_emitExtra ts.lex t e hinv
  | errorfC t msg =>
    unfold TraceState.step at h
    simp only [Option.some.injEq] at h
    subst h
    exact engineInv_errorf ts.lex t msg hinv

theorem engineInv_init (s : String) : EngineInv (initTrace s).lex := by
  intro _
  constructor
  · simp [initTrace, NewLexerString, NewLexer]
  · simp [initTrace, NewLexerString, NewLexer, chainR]

/-- **C10.** Along every state-function chain, as long as `Next` has not
yet returned the end-of-source sentinel (the `eof` flag is still unset),
the current offset minus the token-start offset equals the scan buffer's
length, after every engine operation. -/
theorem spanLengthInvariant (s : String) (cmds : List Cmd) (ts : TraceState)
    (h : runTrace cmds (initTrace s) = some ts) (he : ts.lex.eof = false) :
    ts.lex.pos.pos - ts.lex.tokenPos.pos = (ts.lex.value.length : Int) := by
  suffices H : ∀ (cs : List Cmd) (ts0 ts1 : TraceState),
      runTrace cs ts0 = some ts1 → EngineInv ts0.lex → EngineInv ts1.lex by
    exact ((H cmds (initTrace s) ts h (engineInv_init s)) he).1
  intro cs
  induction cs with
  | nil =>
    intro ts0 ts1 h1 hinv
    simp only [runTrace, Option.some.injEq] at h1
    rwa [← h1]
  | cons c cs ih =>
    intro ts0 ts1 h1 hinv
    unfold runTrace at h1
    rcases hs : ts0.step c with _ | ts2 <;> rw [hs] at h1
    · simp at h1
    · exact ih ts2 ts1 h1 (engineInv_step ts0 ts2 c hinv hs)

/-- Witness for `spanLengthInvariant`: the offset equation at the
concrete one-step trace on `"a"`. -/
theorem spanLengthInvariant_w :
    oneNextTrace.lex.pos.pos - oneNextTrace.lex.tokenPos.pos
      = (oneNextTrace.lex.value.length : Int) :=
  spanLengthInvariant "a" [Cmd.nextC] oneNextTrace (by decide) (by decide)

/-! ### The position invariant along arbitrary chains (C5, revisited) -/

/-- The column of a scan from the origin is the span since the last
newline. -/
theorem advanceList_col_zero (rs : List Rune) :
    (advanceList ⟨0, 0, 0⟩ rs).col = sinceLastNl rs := by
  rw [advanceList_col, colAfter_eq_sinceLastNl]
  by_cases hm : nl ∈ rs
  · simp [hm]
  · simp only [hm, if_false]
    unfold sinceLastNl
    rw [List.takeWhile_eq_self_iff.mpr ?hall]
    · simp
    case hall =>
      intro a ha
      have ham : a ∈ rs := List.mem_reverse.mp ha
      have hne : ¬a = nl := fun hc => hm (hc ▸ ham)
      simpa using fun hc => hne hc

/-- When `Peek` succeeds, either its internal `Next` hit end-of-source
(the flag is set on the result), or the position and `prevPos` stack are
restored exactly. -/
theorem peek_restores (l : LexState) (r : Rune) (l1 : LexState)
    (h : lexer.Peek l = some (r, l1)) :
    l1.eof = true ∨ (l1.pos = l.pos ∧ l1.prevPos = l.prevPos ∧ l1.eof = l.eof) := by
  unfold lexer.Peek at h
  rcases hn : lexer.Next l with _ | ⟨r0, la⟩ <;> simp only [hn] at h
  · exact absurd h (by simp)
  · rcases hb : lexer.Backup la with _ | lb <;> simp only [hb] at h
    · exact absurd h (by simp)
    · simp only [Option.some.injEq, Prod.mk.injEq] at h
      obtain ⟨prev, hgl, hvne, hlb⟩ := backup_full_shape la lb hb
      rcases next_full_shape l r0 la hn with ⟨x, br, hla⟩ | heof
      · right
        subst hla
        have hgl2 : prev = l.pos := by
          have hgl3 : (l.prevPos ++ [l.pos]).getLast? = some prev := hgl
          rw [List.getLast?_concat] at hgl3
          exact (Option.some.inj hgl3).symm
        rw [← h.2, hlb, hgl2]
        unfold backupSuccState nextSuccState
        exact ⟨rfl, List.dropLast_concat, rfl⟩
      · left
        rw [← h.2, hlb]
        exact heof

theorem posConsInv_step (ts ts' : TraceState) (c : Cmd)
    (hinv : PosConsInv ts) (h : ts.step c = some ts') : PosConsInv ts' := by
  cases c with
  | nextC =>
    unfold TraceState.step at h
    rcases hn : lexer.Next ts.lex with _ | ⟨r, l1⟩ <;> simp only [hn] at h
    · exact absurd h (by simp)
    · simp only [Option.map_some', Option.some.injEq] at h
      subst h
      intro he1
      rcases next_full_shape ts.lex r l1 hn with ⟨x, br, rfl⟩ | heof
      · have he0 : ts.lex.eof = false := he1
        obtain ⟨hpos, hprev⟩ := hinv he0
        constructor
        · show ts.lex.pos.Advance x
            = advanceList ⟨0, 0, 0⟩
                (ts.consumed ++ [(ts.lex.value ++ [x]).getLastD 0])
          rw [List.getLastD_concat, advanceList_concat, hpos]
        · show ts.lex.prevPos ++ [ts.lex.pos]
            = prefixPositions (ts.consumed ++ [(ts.lex.value ++ [x]).getLastD 0])
          rw [List.getLastD_concat, prefixPositions_concat, hpos, hprev]
      · rw [heof] at he1
        exact absurd he1 (by simp)
  | backupC =>
    unfold TraceState.step at h
    rcases hb : lexer.Backup ts.lex with _ | l1 <;> simp only [hb] at h
    · exact absurd h (by simp)
    · simp only [Option.map_some', Option.some.injEq] at h
      subst h
      intro he1
      obtain ⟨prev, hp, hv, rfl⟩ := backup_full_shape ts.lex l1 hb
      have he0 : ts.lex.eof = false := he1
      obtain ⟨hpos, hprev⟩ := hinv he0
      rcases List.eq_nil_or_concat ts.consumed with hnil | ⟨cs, cX, hcc⟩
      · rw [hprev, hnil] at hp
        simp [prefixPositions] at hp
      · rw [List.concat_eq_append] at hcc
        rw [hcc, prefixPositions_concat] at hprev
        rw [hprev, List.getLast?_concat] at hp
        have hprev2 : prev = advanceList ⟨0, 0, 0⟩ cs := (Option.some.inj hp).symm
        constructor
        · show prev = advanceList ⟨0, 0, 0⟩ ts.consumed.dropLast
          rw [hcc, List.dropLast_concat]
          exact hprev2
        · show ts.lex.prevPos.dropLast = prefixPositions ts.consumed.dropLast
          rw [hcc, List.dropLast_concat, hprev, List.dropLast_concat]
  | peekC =>
    unfold TraceState.step at h
    rcases hp : lexer.Peek ts.lex with _ | ⟨r, l1⟩ <;> simp only [hp] at h
    · exact absurd h (by simp)
    · simp only [Option.map_some', Option.some.injEq] at h
      subst h
      intro he1
      rcases peek_restores ts.lex r l1 hp with heof | ⟨hpos1, hprev1, heq⟩
      · rw [heof] at he1
        exact absurd he1 (by simp)
      · have he0 : ts.lex.eof = false := by rw [← heq]; exact he1
        obtain ⟨hpos, hprev⟩ := hinv he0
        constructor
        · show l1.pos = advanceList ⟨0, 0, 0⟩ ts.consumed
          rw [hpos1, hpos]
        · show l1.prevPos = prefixPositions ts.consumed
          rw [hprev1, hprev]
  | ignoreC =>
    unfold TraceState.step at h
    simp only [Option.some.injEq] at h
    subst h
    intro he1
    have he0 : ts.lex.eof = false := he1
    exact hinv he0
  | emitC t =>
    unfold TraceState.step at h
    simp only [Option.some.injEq] at h
    subst h
    intro he1
    have he0 : ts.lex.eof = false := he1
    exact hinv he0
  | emitExtraC t e =>
    unfold TraceState.step at h
    simp only [Option.some.injEq] at h
    subst h
    intro he1
    have he0 : ts.lex.eof = false := he1
    exact hinv he0
  | errorfC t msg =>
    unfold TraceState.step at h
    simp only [Option.some.injEq] at h
    subst h
    intro he1
    have he0 : ts.lex.eof = false := he1
    exact hinv he0

theorem posConsInv_init (s : String) : PosConsInv (initTrace s) := by
  intro _
  constructor
  · simp [initTrace, NewLexerString, NewLexer, advanceList]
  · simp [initTrace, NewLexerString, NewLexer, prefixPositions]

/-- **C5 (counterexample).** The position invariant does not hold at
every scanning point: on input `"a"`, after the engine has consumed the
full 1-rune prefix (position (0,1,1), the rune still held un-undone in
the scan buffer) a single `Peek` — performed by the repository's own
`lexWord` on every iteration — leaves `Pos()` and `Col()` at 0 while the
scan buffer still holds the whole prefix: the `Backup` inside `Peek`
pops a stale `prevPos` snapshot after the end-of-source `Next`. -/
theorem positionNotInvariant_cex :
    lexer.Pos (nextIter 1 (NewLexerString "a")) = 1
    ∧ lexer.Value (nextIter 1 (NewLexerString "a")) = strRunes "a"
    ∧ (lexer.Peek (nextIter 1 (NewLexerString "a"))).map
        (fun p => (lexer.Pos p.2, lexer.Col p.2, lexer.Value p.2))
      = some (0, 0, strRunes "a")
    ∧ (0 : Int) ≠ (1 : Int) := by
  decide

/-- **C5 (amended).** At every point along every state-function chain,
as long as `Next` has not yet returned the end-of-source sentinel,
`Pos()` equals the number of runes in the net consumed stream (every
rune consumed by `Next` minus those undone by `Backup`), `Line()` equals
the number of newline runes in that stream, and `Col()` equals the
number of runes after its most recent newline (all of it when it has
none); when a fresh lexer has plainly consumed a `k`-prefix of the
input that stream is exactly the prefix, giving the claim's original
reading. After an end-of-source return the invariant can fail
(`positionNotInvariant_cex`). -/
theorem positionTracksConsumed (s : String) (cmds : List Cmd) (ts : TraceState)
    (h : runTrace cmds (initTrace s) = some ts) (he : ts.lex.eof = false) :
    lexer.Pos ts.lex = (ts.consumed.length : Int)
    ∧ lexer.Line ts.lex = (ts.consumed.count nl : Int)
    ∧ lexer.Col ts.lex = sinceLastNl ts.consumed
    ∧ ∀ k, k ≤ (strRunes s).length →
        lexer.Pos (nextIter k (NewLexerString s)) = (k : Int)
        ∧ lexer.Line (nextIter k (NewLexerString s))
            = (((strRunes s).take k).count nl : Int)
        ∧ lexer.Col (nextIter k (NewLexerString s))
            = sinceLastNl ((strRunes s).take k) := by
  have H : ∀ (cs : List Cmd) (ts0 ts1 : TraceState),
      runTrace cs ts0 = some ts1 → PosConsInv ts0 → PosConsInv ts1 := by
    intro cs
    induction cs with
    | nil =>
      intro ts0 ts1 h1 hinv
      simp only [runTrace, Option.some.injEq] at h1
      rwa [← h1]
    | cons c cs ih =>
      intro ts0 ts1 h1 hinv
      unfold runTrace at h1
      rcases hs : ts0.step c with _ | ts2 <;> rw [hs] at h1
      · simp at h1
      · exact ih ts2 ts1 h1 (posConsInv_step ts0 ts2 c hinv hs)
  obtain ⟨hpos, _⟩ := H cmds (initTrace s) ts h (posConsInv_init s) he
  refine ⟨?_, ?_, ?_, fun k hk => positionInvariant_plain s k hk⟩
  · simp only [lexer.Pos, hpos, advanceList_pos]
    simp
  · simp only [lexer.Line, hpos, advanceList_line]
    simp
  · simp only [lexer.Col, hpos, advanceList_col_zero]

/-- Witness for `positionTracksConsumed`: the one-step trace on `"a\nb"`
together with the plain 3-prefix specialization. -/
theorem positionTracksConsumed_w :
    lexer.Pos nlOneNextTrace.lex = (nlOneNextTrace.consumed.length : Int)
    ∧ lexer.Line nlOneNextTrace.lex = (nlOneNextTrace.consumed.count nl : Int)
    ∧ lexer.Col nlOneNextTrace.lex = sinceLastNl nlOneNextTrace.consumed
    ∧ lexer.Pos (nextIter 3 (NewLexerString "a\nb")) = (3 : Int) := by
  have h := positionTracksConsumed "a\nb" [Cmd.nextC] nlOneNextTrace
    (by decide) (by decide)
  exact ⟨h.1, h.2.1, h.2.2.1, (h.2.2.2 3 (by decide)).1⟩

end Lex
